import Mathlib

/-!
Verification development for the OBJ mesh loader
(`src/picogl/utils/loader/object.py`).

The Python source is shallowly embedded:
* strings are modelled as `List Char` (`Tok`), with Python's `str.split`,
  `str.strip` and `str.startswith` re-implemented structurally;
* Python floats carry exact decimal values, modelled as `ℚ`;
* the fail-fast parse (uncaught `ValueError` from `float()`/`int()`)
  is modelled with `Except ParseError`;
* Python list slicing `xs[a:b]` (which silently truncates at the end of
  the list) is `pySlice`.
-/

/-- Tokens and lines are lists of characters. -/
abbrev Tok := List Char

/-- Whitespace characters recognised by Python's `str.split()` / `str.strip()`
(restricted to those that can occur in a text line). -/
def pyIsSpace (c : Char) : Bool :=
  c = ' ' || c = '\t' || c = '\n' || c = '\r'

/-- Split a character list at every separator satisfying `p`, keeping empty
segments — the semantics of Python's `str.split(sep)` for a one-character
separator. -/
def splitCharP (p : Char → Bool) : List Char → List Char → List (List Char)
  | acc, [] => [acc.reverse]
  | acc, c :: rest =>
    if p c then acc.reverse :: splitCharP p [] rest
    else splitCharP p (c :: acc) rest

/-- Python's `line.split()` (no argument): split on runs of whitespace,
discarding empty segments. -/
def pySplitTokens (cs : List Char) : List Tok :=
  (splitCharP pyIsSpace [] cs).filter (fun t => ¬ t.isEmpty)

/-- Python's `line.strip()`: drop leading and trailing whitespace. -/
def pyStrip (cs : List Char) : List Char :=
  ((cs.dropWhile pyIsSpace).reverse.dropWhile pyIsSpace).reverse

/-- Python's `line.startswith("#")`. -/
def startsWithHash : List Char → Bool
  | '#' :: _ => true
  | _ => false

/-- Value of a list of decimal digit characters. -/
def digitsToNat (cs : List Char) : Nat :=
  cs.foldl (fun n c => n * 10 + (c.toNat - '0'.toNat)) 0

/-- A non-empty all-digit character list read as a natural number. -/
def pyIntDigits (cs : List Char) : Option Nat :=
  if !cs.isEmpty && cs.all Char.isDigit then some (digitsToNat cs) else none

/-- Models the Python builtin `int()` on plain (optionally signed) decimal
tokens; `none` models the `ValueError` raised on anything else. -/
def pyInt (cs : List Char) : Option Int :=
  match cs with
  | '-' :: rest => (pyIntDigits rest).map (fun n => -(n : Int))
  | '+' :: rest => (pyIntDigits rest).map (fun n => (n : Int))
  | _ => (pyIntDigits cs).map (fun n => (n : Int))

/-- Magnitude of an unsigned decimal literal (`d+` or `d*.d*` with at least
one digit), returned as numerator and denominator. -/
def pyFloatMag (cs : List Char) : Option (Nat × Nat) :=
  match splitCharP (fun c => c = '.') [] cs with
  | [a] =>
    if !a.isEmpty && a.all Char.isDigit then some (digitsToNat a, 1) else none
  | [a, b] =>
    if (!a.isEmpty || !b.isEmpty) && a.all Char.isDigit && b.all Char.isDigit
    then some (digitsToNat (a ++ b), 10 ^ b.length) else none
  | _ => none

/-- Models the Python builtin `float()` on plain (optionally signed) decimal
literals, as the exact rational it denotes; `none` models the `ValueError`
raised on a token that is not such a literal (exponent forms, `inf`, `nan`
are not modelled: no claim involves them). -/
def pyFloat (cs : List Char) : Option ℚ :=
  match cs with
  | '-' :: rest => (pyFloatMag rest).map (fun p => mkRat (-(p.1 : Int)) p.2)
  | '+' :: rest => (pyFloatMag rest).map (fun p => mkRat (p.1 : Int) p.2)
  | _ => (pyFloatMag cs).map (fun p => mkRat (p.1 : Int) p.2)

/-- The one fatal parse failure of the source: an uncaught Python
`ValueError` from `float()` or `int()`. -/
inductive ParseError where
  | valueError
deriving DecidableEq

/-- Parsed state of `OBJLoader.__init__`: the four flat tables plus the three
optional pass-through properties set with `setattr`. -/
structure OBJLoader where
  vertices : List ℚ := []
  normals : List ℚ := []
  texcoords : List ℚ := []
  indices : List Int := []
  s : Option Tok := none
  mtllib : Option Tok := none
  usemtl : Option Tok := none
deriving DecidableEq

/-- The state set up at the top of `OBJLoader.__init__`. -/
def emptyLoader : OBJLoader :=
  { vertices := [], normals := [], texcoords := [], indices := [] }

/-- `ObjectData` with its `__post_init__`: when `indices` is `None`, generate
`0..(len(vertices)//3 - 1)`. -/
structure ObjectData where
  vertices : List ℚ
  texcoords : List ℚ
  normals : List ℚ
  indices : List Nat
deriving DecidableEq

/-- The `ObjectData(...)` constructor call: `indices = None` triggers
`__post_init__`'s `list(range(len(self.vertices) // 3))`. -/
def ObjectData.make (vs ts ns : List ℚ) (is : Option (List Nat)) : ObjectData :=
  { vertices := vs, texcoords := ts, normals := ns,
    indices := match is with
      | some i => i
      | none => List.range (vs.length / 3) }

/-- All-or-nothing map with `Option`, modelling `map(float, ...)` consumed by
`list.extend` inside a construction that is discarded on `ValueError`. -/
def optionMapM (f : α → Option β) : List α → Option (List β)
  | [] => some []
  | a :: l =>
    match f a, optionMapM f l with
    | some b, some bs => some (b :: bs)
    | _, _ => none

/-- All-or-nothing map with `Except`, for the loop over face reference
tokens (the first failing token aborts the parse). -/
def exceptMapM (f : α → Except ParseError β) :
    List α → Except ParseError (List β)
  | [] => .ok []
  | a :: l =>
    match f a, exceptMapM f l with
    | .ok b, .ok bs => .ok (b :: bs)
    | .error e, _ => .error e
    | _, .error e => .error e

/-- One field of a face reference: `int(subs[k]) if subs[k] else 0`
(`none` models the `ValueError` from `int()`). -/
def refField (su : Tok) : Option Int :=
  if su.isEmpty then some 0 else pyInt su

/-- The padded field list of one face reference token: `ref.split("/")`
followed by `while len(subs) < 3: subs.append("")`. -/
def refSubs (ref : Tok) : List Tok :=
  let subs0 := splitCharP (fun c => c = '/') [] ref
  subs0 ++ List.replicate (3 - subs0.length) []

/-- One face reference token: parse the three padded fields; a `ValueError`
in any field aborts. -/
def parseRef (ref : Tok) : Except ParseError (Int × Int × Int) :=
  match refField ((refSubs ref).getD 0 []), refField ((refSubs ref).getD 1 []),
      refField ((refSubs ref).getD 2 []) with
  | some v, some t, some n => .ok (v, t, n)
  | _, _, _ => .error .valueError

/-- Flattening of one stored face-corner triple, as in
`[idx for face in face_indices for idx in face]`. -/
def tripleToList (c : Int × Int × Int) : List Int := [c.1, c.2.1, c.2.2]

/-- The body of `OBJLoader.__init__`'s per-line dispatch, after
`parts = line.split()`, acting on the accumulated state. -/
def processTokens (st : OBJLoader) : List Tok → Except ParseError OBJLoader
  | [] => .ok st
  | code :: rest =>
    if code = "v".data then
      match optionMapM pyFloat (rest.take 3) with
      | some vs => .ok { st with vertices := st.vertices ++ vs }
      | none => .error .valueError
    else if code = "vn".data then
      match optionMapM pyFloat (rest.take 3) with
      | some vs => .ok { st with normals := st.normals ++ vs }
      | none => .error .valueError
    else if code = "vt".data then
      match optionMapM pyFloat (rest.take 2) with
      | some vs => .ok { st with texcoords := st.texcoords ++ vs }
      | none => .error .valueError
    else if code = "f".data then
      match exceptMapM parseRef rest with
      | .ok tris => .ok { st with indices := st.indices ++ tris.flatMap tripleToList }
      | .error e => .error e
    else if code = "s".data then .ok { st with s := rest.head? }
    else if code = "mtllib".data then .ok { st with mtllib := rest.head? }
    else if code = "usemtl".data then .ok { st with usemtl := rest.head? }
    else .ok st

/-- One line of the parse loop: skip blank and `#` lines, otherwise split
into tokens and dispatch (the `g` and unknown-line branches only skip or
print, so they are the fall-through of `processTokens`). -/
def processLine (st : OBJLoader) (line : String) :
    Except ParseError OBJLoader :=
  if pyStrip line.data = [] || startsWithHash line.data then .ok st
  else processTokens st (pySplitTokens line.data)

/-- The `for line in f:` loop of `OBJLoader.__init__`: process lines in
order; the first uncaught `ValueError` aborts the whole parse. -/
def parseLines (st : OBJLoader) : List String → Except ParseError OBJLoader
  | [] => .ok st
  | line :: rest =>
    match processLine st line with
    | .ok st2 => parseLines st2 rest
    | .error e => .error e

/-- The whole parse of `OBJLoader.__init__` over the file's lines
(file-system resolution is out of scope; the lines are the input). -/
def parseOBJ (lines : List String) : Except ParseError OBJLoader :=
  parseLines emptyLoader lines

/-- Python list slicing `xs[start:stop]` for `0 ≤ start ≤ stop`: silently
truncates at the end of the list (never an error). -/
def pySlice (xs : List ℚ) (start stop : Nat) : List ℚ :=
  (xs.drop start).take (stop - start)

/-- Position block for one corner, as inlined identically in
`to_array_style` and `to_single_index_style`:
`self.vertices[3*(v_idx-1) : 3*(v_idx-1)+3]` when `v_idx > 0`, else the
default `[0.0, 0.0, 0.0]`. -/
def resolvePos (tbl : List ℚ) (v : Int) : List ℚ :=
  if 0 < v then
    pySlice tbl (3 * (v.toNat - 1)) (3 * (v.toNat - 1) + 3)
  else [0, 0, 0]

/-- Texcoord block for one corner: read 2 floats when `t_idx > 0` and the
table is non-empty, else the default `[0.0, 0.0]`. -/
def resolveTex (tbl : List ℚ) (t : Int) : List ℚ :=
  if 0 < t ∧ tbl ≠ [] then
    pySlice tbl (2 * (t.toNat - 1)) (2 * (t.toNat - 1) + 2)
  else [0, 0]

/-- Normal block for one corner: read 3 floats when `n_idx > 0` and the
table is non-empty, else the default `[0.0, 0.0, 1.0]`. -/
def resolveNorm (tbl : List ℚ) (n : Int) : List ℚ :=
  if 0 < n ∧ tbl ≠ [] then
    pySlice tbl (3 * (n.toNat - 1)) (3 * (n.toNat - 1) + 3)
  else [0, 0, 1]

/-- `for i in range(0, len(self.indices), 3): v_idx, t_idx, n_idx =
self.indices[i:i+3]` — the 3-element chunking both converters use. -/
def chunks3 : List Int → List (Int × Int × Int)
  | a :: b :: c :: rest => (a, b, c) :: chunks3 rest
  | _ => []

/-- Loop body of `to_array_style`: extend the three local accumulator lists
with the blocks resolved from one corner. -/
def arrStep (l : OBJLoader) (acc : List ℚ × List ℚ × List ℚ)
    (c : Int × Int × Int) : List ℚ × List ℚ × List ℚ :=
  (acc.1 ++ resolvePos l.vertices c.1,
   acc.2.1 ++ resolveTex l.texcoords c.2.1,
   acc.2.2 ++ resolveNorm l.normals c.2.2)

/-- `OBJLoader.to_array_style`. -/
def to_array_style (l : OBJLoader) : ObjectData :=
  let r := (chunks3 l.indices).foldl (arrStep l) ([], [], [])
  ObjectData.make r.1 r.2.1 r.2.2 none

/-- Accumulator of `to_single_index_style`'s loop.  The Python dict
`combinations` maps each key to its insertion position
(`combinations[key] = len(combinations)`); it is modelled by `seen`, the
keys in insertion order, with lookup returning the first index. -/
structure SIAcc where
  seen : List (Int × Int × Int)
  vertices : List ℚ
  texcoords : List ℚ
  normals : List ℚ
  indices : List Nat

/-- First index of `a` in a list (the value a Python dict whose values are
insertion positions associates to a present key). -/
def firstIdx (a : α) [DecidableEq α] : List α → Nat
  | [] => 0
  | b :: l => if a = b then 0 else firstIdx a l + 1

/-- Loop body of `to_single_index_style`: on an unseen key, record it and
append the resolved attribute blocks; always append the key's slot to the
output index list. -/
def siStep (l : OBJLoader) (acc : SIAcc) (c : Int × Int × Int) : SIAcc :=
  if c ∈ acc.seen then
    { acc with indices := acc.indices ++ [firstIdx c acc.seen] }
  else
    { seen := acc.seen ++ [c],
      vertices := acc.vertices ++ resolvePos l.vertices c.1,
      texcoords := acc.texcoords ++ resolveTex l.texcoords c.2.1,
      normals := acc.normals ++ resolveNorm l.normals c.2.2,
      indices := acc.indices ++ [acc.seen.length] }

/-- `OBJLoader.to_single_index_style`. -/
def to_single_index_style (l : OBJLoader) : ObjectData :=
  let r := (chunks3 l.indices).foldl (siStep l) ⟨[], [], [], [], []⟩
  ObjectData.make r.vertices r.texcoords r.normals (some r.indices)

/-- State-transformer view of the method call `self.to_array_style()`: the
method body assigns only to local variables, never to `self`, so the
post-state is the pre-state. -/
def to_array_style_call (l : OBJLoader) : ObjectData × OBJLoader :=
  (to_array_style l, l)

/-- State-transformer view of the method call
`self.to_single_index_style()`; as above, `self` is never assigned. -/
def to_single_index_style_call (l : OBJLoader) : ObjectData × OBJLoader :=
  (to_single_index_style l, l)

/-- The distinct elements of a list in first-occurrence order: the key set
of the interning dict after processing the list. -/
def insOrd (p : List (Int × Int × Int)) : List (Int × Int × Int) :=
  p.foldl (fun acc c => if c ∈ acc then acc else acc ++ [c]) []

/-- One corner's three indices are in range for the loader's tables
(position always required when positive; texcoord/normal only constrained
when positive and the table is non-empty, since otherwise the default is
substituted). -/
def cornerInRange (l : OBJLoader) (c : Int × Int × Int) : Prop :=
  (0 < c.1 → 3 * c.1.toNat ≤ l.vertices.length) ∧
  (0 < c.2.1 → l.texcoords ≠ [] → 2 * c.2.1.toNat ≤ l.texcoords.length) ∧
  (0 < c.2.2 → l.normals ≠ [] → 3 * c.2.2.toNat ≤ l.normals.length)

/-- Every face corner of the loader is in range. -/
def allInRange (l : OBJLoader) : Prop :=
  ∀ c ∈ chunks3 l.indices, cornerInRange l c

deriving instance DecidableEq for Except

/-- Concrete loader produced by parsing the out-of-range example
`["v 0 0 0", "v 1 0 0", "v 0 1 0", "f 999 1 2"]`. -/
def objL4 : OBJLoader :=
  { vertices := [0, 0, 0, 1, 0, 0, 0, 1, 0],
    indices := [999, 0, 0, 1, 0, 0, 2, 0, 0] }

/-- Concrete loader with 4 positions and faces `f 1 2 3`, `f 1 3 4`. -/
def objL7 : OBJLoader :=
  { vertices := [0, 0, 0, 1, 0, 0, 0, 1, 0, 0, 0, 1],
    indices := [1, 0, 0, 2, 0, 0, 3, 0, 0, 1, 0, 0, 3, 0, 0, 4, 0, 0] }

/-- Concrete loader produced by parsing `["f -1 2 3"]`. -/
def objNeg : OBJLoader :=
  { indices := [-1, 0, 0, 2, 0, 0, 3, 0, 0] }

/-- Concrete loader produced by parsing `["v 0 0 0", "f 1 2 3"]`. -/
def objC10 : OBJLoader :=
  { vertices := [0, 0, 0], indices := [1, 0, 0, 2, 0, 0, 3, 0, 0] }

theorem firstIdx_lt_length [DecidableEq α] {a : α} {l : List α}
    (h : a ∈ l) : firstIdx a l < l.length := by
  induction l with
  | nil => cases h
  | cons b t ih =>
    by_cases hab : a = b
    · simp [firstIdx, hab]
    · have ht : a ∈ t := by
        rcases List.mem_cons.mp h with h1 | h1
        · exact absurd h1 hab
        · exact h1
      simp only [firstIdx, if_neg hab, List.length_cons]
      exact Nat.succ_lt_succ (ih ht)

theorem get?_firstIdx [DecidableEq α] {a : α} {l : List α}
    (h : a ∈ l) : l.get? (firstIdx a l) = some a := by
  induction l with
  | nil => cases h
  | cons b t ih =>
    by_cases hab : a = b
    · simp [firstIdx, hab]
    · have ht : a ∈ t := by
        rcases List.mem_cons.mp h with h1 | h1
        · exact absurd h1 hab
        · exact h1
      simpa [firstIdx, if_neg hab] using ih ht

theorem firstIdx_inj [DecidableEq α] {a b : α} {l : List α}
    (ha : a ∈ l) (hb : b ∈ l) (h : firstIdx a l = firstIdx b l) : a = b := by
  have h1 := get?_firstIdx ha
  have h2 := get?_firstIdx hb
  rw [h, h2] at h1
  exact (Option.some_injective _ h1).symm

theorem firstIdx_append_left [DecidableEq α] {a : α} {l1 : List α}
    (l2 : List α) (h : a ∈ l1) :
    firstIdx a (l1 ++ l2) = firstIdx a l1 := by
  induction l1 with
  | nil => cases h
  | cons b t ih =>
    by_cases hab : a = b
    · simp [firstIdx, hab]
    · have ht : a ∈ t := by
        rcases List.mem_cons.mp h with h1 | h1
        · exact absurd h1 hab
        · exact h1
      simp [firstIdx, if_neg hab, ih ht]

theorem firstIdx_append_of_not_mem [DecidableEq α] {a : α} {l1 : List α}
    (l2 : List α) (h : a ∉ l1) :
    firstIdx a (l1 ++ l2) = l1.length + firstIdx a l2 := by
  induction l1 with
  | nil => simp
  | cons b t ih =>
    have hab : a ≠ b := fun hh => h (hh ▸ List.mem_cons_self b t)
    have ht : a ∉ t := fun hh => h (List.mem_cons_of_mem b hh)
    calc firstIdx a ((b :: t) ++ l2) = firstIdx a (b :: (t ++ l2)) := rfl
      _ = firstIdx a (t ++ l2) + 1 := by simp [firstIdx, hab]
      _ = t.length + firstIdx a l2 + 1 := by rw [ih ht]
      _ = (b :: t).length + firstIdx a l2 := by
          simp only [List.length_cons]; omega

theorem nodup_get?_firstIdx [DecidableEq α] {a : α} {l : List α} {i : Nat}
    (hnd : l.Nodup) (h : l.get? i = some a) : firstIdx a l = i := by
  induction l generalizing i with
  | nil => simp at h
  | cons b t ih =>
    cases i with
    | zero =>
      simp only [List.get?] at h
      have : a = b := (Option.some_injective _ h).symm
      simp [firstIdx, this]
    | succ n =>
      simp only [List.get?] at h
      have hat : a ∈ t := List.get?_mem h
      have hab : a ≠ b := by
        intro hh
        exact (List.nodup_cons.mp hnd).1 (hh ▸ hat)
      simp [firstIdx, if_neg hab, ih (List.nodup_cons.mp hnd).2 h]

theorem insOrd_nil : insOrd [] = [] := rfl

theorem insOrd_append (p : List (Int × Int × Int)) (c : Int × Int × Int) :
    insOrd (p ++ [c]) =
      if c ∈ insOrd p then insOrd p else insOrd p ++ [c] := by
  simp [insOrd, List.foldl_append]

theorem mem_insOrd {p : List (Int × Int × Int)} :
    ∀ {a : Int × Int × Int}, a ∈ insOrd p ↔ a ∈ p := by
  induction p using List.reverseRecOn with
  | nil => intro a; simp [insOrd_nil]
  | append_singleton p c ih =>
    intro a
    rw [insOrd_append]
    by_cases hc : c ∈ insOrd p
    · rw [if_pos hc, ih]
      simp only [List.mem_append, List.mem_singleton]
      constructor
      · exact fun h => Or.inl h
      · rintro (h | h)
        · exact h
        · exact h ▸ ih.mp hc
    · rw [if_neg hc]
      simp [List.mem_append, ih]

theorem nodup_insOrd (p : List (Int × Int × Int)) : (insOrd p).Nodup := by
  induction p using List.reverseRecOn with
  | nil => simp [insOrd_nil]
  | append_singleton p c ih =>
    rw [insOrd_append]
    by_cases hc : c ∈ insOrd p
    · simpa [if_pos hc] using ih
    · simp [if_neg hc, List.nodup_append, ih, hc]

theorem siFoldl (l : OBJLoader) (p : List (Int × Int × Int)) :
    p.foldl (siStep l) ⟨[], [], [], [], []⟩ =
      ⟨insOrd p,
       (insOrd p).flatMap (fun c => resolvePos l.vertices c.1),
       (insOrd p).flatMap (fun c => resolveTex l.texcoords c.2.1),
       (insOrd p).flatMap (fun c => resolveNorm l.normals c.2.2),
       p.map (fun c => firstIdx c (insOrd p))⟩ := by
  induction p using List.reverseRecOn with
  | nil => rfl
  | append_singleton p c ih =>
    rw [List.foldl_append, ih, List.foldl_cons, List.foldl_nil]
    by_cases hc : c ∈ insOrd p
    · rw [insOrd_append, if_pos hc]
      simp only [siStep, hc, if_true, List.map_append, List.map_cons,
        List.map_nil]
    · rw [insOrd_append, if_neg hc]
      simp only [siStep, hc, if_false, SIAcc.mk.injEq, List.flatMap_append,
        List.map_append, List.map_cons, List.map_nil]
      refine ⟨trivial, by simp, by simp, by simp, ?_⟩
      congr 1
      · exact List.map_congr_left fun a ha =>
          (firstIdx_append_left [c] (mem_insOrd.mpr ha)).symm
      · rw [firstIdx_append_of_not_mem [c] hc]
        simp [firstIdx]

theorem arrFoldl (l : OBJLoader) (p : List (Int × Int × Int)) :
    p.foldl (arrStep l) ([], [], []) =
      (p.flatMap (fun c => resolvePos l.vertices c.1),
       p.flatMap (fun c => resolveTex l.texcoords c.2.1),
       p.flatMap (fun c => resolveNorm l.normals c.2.2)) := by
  induction p using List.reverseRecOn with
  | nil => rfl
  | append_singleton p c ih =>
    rw [List.foldl_append, ih, List.foldl_cons, List.foldl_nil]
    simp [arrStep, List.flatMap_append]

theorem to_array_style_eq (l : OBJLoader) :
    to_array_style l = ObjectData.make
      ((chunks3 l.indices).flatMap (fun c => resolvePos l.vertices c.1))
      ((chunks3 l.indices).flatMap (fun c => resolveTex l.texcoords c.2.1))
      ((chunks3 l.indices).flatMap (fun c => resolveNorm l.normals c.2.2))
      none := by
  simp [to_array_style, arrFoldl]

theorem to_single_index_style_eq (l : OBJLoader) :
    to_single_index_style l = ObjectData.make
      ((insOrd (chunks3 l.indices)).flatMap (fun c => resolvePos l.vertices c.1))
      ((insOrd (chunks3 l.indices)).flatMap (fun c => resolveTex l.texcoords c.2.1))
      ((insOrd (chunks3 l.indices)).flatMap (fun c => resolveNorm l.normals c.2.2))
      (some ((chunks3 l.indices).map
        (fun c => firstIdx c (insOrd (chunks3 l.indices))))) := by
  simp [to_single_index_style, siFoldl]

theorem chunks3_flatMap : ∀ xs : List Int, xs.length % 3 = 0 →
    (chunks3 xs).flatMap tripleToList = xs
  | [], _ => rfl
  | [_], h => by simp at h
  | [_, _], h => by simp at h
  | a :: b :: c :: rest, h => by
    have h3 : rest.length % 3 = 0 := by
      simp only [List.length_cons] at h; omega
    simp [chunks3, tripleToList, chunks3_flatMap rest h3]

theorem length_chunks3 : ∀ xs : List Int,
    (chunks3 xs).length = xs.length / 3
  | [] => rfl
  | [_] => by simp [chunks3]
  | [_, _] => by simp [chunks3]
  | a :: b :: c :: rest => by
    simp only [chunks3, List.length_cons, length_chunks3 rest]
    omega

theorem length_resolvePos {tbl : List ℚ} {v : Int}
    (h : 0 < v → 3 * v.toNat ≤ tbl.length) :
    (resolvePos tbl v).length = 3 := by
  rw [resolvePos]
  split
  case isTrue hv =>
    have h1 := h hv
    have h2 : 1 ≤ v.toNat := by omega
    simp only [pySlice, List.length_take, List.length_drop]
    omega
  case isFalse => rfl

theorem length_resolveTex {tbl : List ℚ} {t : Int}
    (h : 0 < t → tbl ≠ [] → 2 * t.toNat ≤ tbl.length) :
    (resolveTex tbl t).length = 2 := by
  rw [resolveTex]
  split
  case isTrue ht =>
    have h1 := h ht.1 ht.2
    have h2 : 1 ≤ t.toNat := by omega
    simp only [pySlice, List.length_take, List.length_drop]
    omega
  case isFalse => rfl

theorem length_resolveNorm {tbl : List ℚ} {n : Int}
    (h : 0 < n → tbl ≠ [] → 3 * n.toNat ≤ tbl.length) :
    (resolveNorm tbl n).length = 3 := by
  rw [resolveNorm]
  split
  case isTrue hn =>
    have h1 := h hn.1 hn.2
    have h2 : 1 ≤ n.toNat := by omega
    simp only [pySlice, List.length_take, List.length_drop]
    omega
  case isFalse => rfl

theorem length_resolvePos_le (tbl : List ℚ) (v : Int) :
    (resolvePos tbl v).length ≤ 3 := by
  rw [resolvePos]
  split
  · simp only [pySlice, List.length_take, List.length_drop]
    omega
  · simp

theorem flatMap_length_eq {α : Type} {f : α → List ℚ} {k : Nat} :
    ∀ {cs : List α}, (∀ c ∈ cs, (f c).length = k) →
      (cs.flatMap f).length = k * cs.length
  | [], _ => by simp
  | a :: t, h => by
    have ht : ∀ c ∈ t, (f c).length = k :=
      fun c hc => h c (List.mem_cons_of_mem a hc)
    simp only [List.flatMap_cons, List.length_append, List.length_cons,
      flatMap_length_eq ht, h a (List.mem_cons_self a t)]
    ring

theorem flatMap_length_le {α : Type} {f : α → List ℚ} {k : Nat} :
    ∀ {cs : List α}, (∀ c ∈ cs, (f c).length ≤ k) →
      (cs.flatMap f).length ≤ k * cs.length
  | [], _ => by simp
  | a :: t, h => by
    have ht : ∀ c ∈ t, (f c).length ≤ k :=
      fun c hc => h c (List.mem_cons_of_mem a hc)
    have h1 := h a (List.mem_cons_self a t)
    have h2 := flatMap_length_le ht
    simp only [List.flatMap_cons, List.length_append, List.length_cons]
    calc (f a).length + (t.flatMap f).length ≤ k + k * t.length := by omega
      _ = k * (t.length + 1) := by ring

theorem drop_append_len {α : Type} :
    ∀ (l1 l2 : List α) (n : Nat), (l1 ++ l2).drop (l1.length + n) = l2.drop n
  | [], l2, n => by simp
  | a :: t, l2, n => by
    have : (a :: t).length + n = (t.length + n) + 1 := by
      simp only [List.length_cons]; omega
    rw [this, List.cons_append, List.drop_succ_cons, drop_append_len t l2 n]

theorem flatMap_block {α : Type} {f : α → List ℚ} {k : Nat} :
    ∀ {cs : List α} {i : Nat} {ci : α},
      (∀ c ∈ cs, (f c).length = k) → cs.get? i = some ci →
      ((cs.flatMap f).drop (k * i)).take k = f ci
  | [], i, ci, _, h => by simp at h
  | a :: t, 0, ci, hk, h => by
    have ha : a = ci := by simpa using h
    have hfa : (f a).length = k := hk a (List.mem_cons_self a t)
    subst ha
    rw [Nat.mul_zero, List.drop_zero, List.flatMap_cons, ← hfa,
      List.take_left]
  | a :: t, i + 1, ci, hk, h => by
    have ht : ∀ c ∈ t, (f c).length = k :=
      fun c hc => hk c (List.mem_cons_of_mem a hc)
    have h2 : t.get? i = some ci := by simpa using h
    have hfa : (f a).length = k := hk a (List.mem_cons_self a t)
    have harith : k * (i + 1) = (f a).length + k * i := by rw [hfa]; ring
    rw [List.flatMap_cons, harith, drop_append_len]
    exact flatMap_block ht h2

theorem get?_map_own {α β : Type} {f : α → β} :
    ∀ (l : List α) (i : Nat), (l.map f).get? i = (l.get? i).map f
  | [], _ => rfl
  | _ :: _, 0 => rfl
  | _ :: t, i + 1 => get?_map_own t i

theorem init_le_foldl_max : ∀ (l : List Nat) (b : Nat), b ≤ l.foldl Nat.max b
  | [], _ => Nat.le_refl _
  | a :: t, b =>
    Nat.le_trans (Nat.le_max_left b a) (init_le_foldl_max t (Nat.max b a))

theorem le_foldl_max : ∀ {l : List Nat} (b : Nat) {x : Nat},
    x ∈ l → x ≤ l.foldl Nat.max b
  | [], _, x, h => absurd h (List.not_mem_nil x)
  | a :: t, b, x, h => by
    show x ≤ t.foldl Nat.max (Nat.max b a)
    rcases List.mem_cons.mp h with h1 | h1
    · calc x ≤ Nat.max b a := by rw [h1]; exact Nat.le_max_right b a
        _ ≤ t.foldl Nat.max (Nat.max b a) := init_le_foldl_max t _
    · exact le_foldl_max (Nat.max b a) h1

theorem foldl_max_le : ∀ {l : List Nat} {b m : Nat},
    b ≤ m → (∀ x ∈ l, x ≤ m) → l.foldl Nat.max b ≤ m
  | [], _, _, hb, _ => hb
  | a :: t, b, m, hb, h => by
    have ha : a ≤ m := h a (List.mem_cons_self a t)
    show t.foldl Nat.max (Nat.max b a) ≤ m
    exact foldl_max_le (Nat.max_le.mpr ⟨hb, ha⟩)
      (fun x hx => h x (List.mem_cons_of_mem a hx))

/-- C1: in `to_single_index_style`, corners with identical
`(posIdx, texIdx, normIdx)` triples are assigned equal entries of
`indices`, corners with differing triples are assigned differing entries,
and attribute data is appended once per distinct triple — at its first
occurrence only (the output arrays traverse the duplicate-free
first-occurrence list `insOrd`). -/
theorem spec_C1 (l : OBJLoader) :
    ((to_single_index_style l).vertices =
      (insOrd (chunks3 l.indices)).flatMap
        (fun c => resolvePos l.vertices c.1)) ∧
    ((to_single_index_style l).texcoords =
      (insOrd (chunks3 l.indices)).flatMap
        (fun c => resolveTex l.texcoords c.2.1)) ∧
    ((to_single_index_style l).normals =
      (insOrd (chunks3 l.indices)).flatMap
        (fun c => resolveNorm l.normals c.2.2)) ∧
    (insOrd (chunks3 l.indices)).Nodup ∧
    ∀ i j ci cj, (chunks3 l.indices).get? i = some ci →
      (chunks3 l.indices).get? j = some cj →
      ∃ ki kj, (to_single_index_style l).indices.get? i = some ki ∧
        (to_single_index_style l).indices.get? j = some kj ∧
        (ki = kj ↔ ci = cj) := by
  have hchar := to_single_index_style_eq l
  have hidx : (to_single_index_style l).indices =
      (chunks3 l.indices).map
        (fun c => firstIdx c (insOrd (chunks3 l.indices))) := by
    rw [hchar]
    rfl
  refine ⟨by rw [hchar]; rfl, by rw [hchar]; rfl, by rw [hchar]; rfl,
    nodup_insOrd _, ?_⟩
  intro i j ci cj hi hj
  refine ⟨firstIdx ci (insOrd (chunks3 l.indices)),
    firstIdx cj (insOrd (chunks3 l.indices)), ?_, ?_, ?_⟩
  · rw [hidx, get?_map_own, hi]; rfl
  · rw [hidx, get?_map_own, hj]; rfl
  · constructor
    · intro hk
      exact firstIdx_inj (mem_insOrd.mpr (List.get?_mem hi))
        (mem_insOrd.mpr (List.get?_mem hj)) hk
    · intro hc; rw [hc]

theorem spec_C1_witness :
    ∃ ki kj, (to_single_index_style objL7).indices.get? 0 = some ki ∧
      (to_single_index_style objL7).indices.get? 3 = some kj ∧
      (ki = kj ↔ ((1:Int), (0:Int), (0:Int)) = ((1:Int), (0:Int), (0:Int))) :=
  (spec_C1 objL7).2.2.2.2 0 3 (1, 0, 0) (1, 0, 0) (by decide) (by decide)

/-- C2: with all face indices in range, `to_single_index_style` emits one
index per face corner, the index list is the per-corner first-occurrence
slot assignment, and (with at least one corner)
`max(indices) + 1 = len(vertices)/3` — the slots are dense from 0. -/
theorem spec_C2 (l : OBJLoader) (h : allInRange l) :
    (to_single_index_style l).indices.length = (chunks3 l.indices).length ∧
    (to_single_index_style l).indices =
      (chunks3 l.indices).map
        (fun c => firstIdx c (insOrd (chunks3 l.indices))) ∧
    (chunks3 l.indices ≠ [] →
      (to_single_index_style l).indices.foldl Nat.max 0 + 1 =
        (to_single_index_style l).vertices.length / 3) := by
  have hchar := to_single_index_style_eq l
  have hidx : (to_single_index_style l).indices =
      (chunks3 l.indices).map
        (fun c => firstIdx c (insOrd (chunks3 l.indices))) := by
    rw [hchar]
    rfl
  refine ⟨by rw [hidx, List.length_map], hidx, ?_⟩
  intro hne
  have hkv : ∀ c ∈ insOrd (chunks3 l.indices),
      (resolvePos l.vertices c.1).length = 3 :=
    fun c hc => length_resolvePos (h c (mem_insOrd.mp hc)).1
  have hlen : (to_single_index_style l).vertices.length =
      3 * (insOrd (chunks3 l.indices)).length := by
    rw [hchar]
    exact flatMap_length_eq hkv
  have hDne : (insOrd (chunks3 l.indices)).length ≠ 0 := by
    intro h0
    rcases List.exists_mem_of_ne_nil _ hne with ⟨c0, hc0⟩
    have : c0 ∈ insOrd (chunks3 l.indices) := mem_insOrd.mpr hc0
    rw [List.length_eq_zero.mp h0] at this
    exact (List.not_mem_nil c0) this
  have hub : (to_single_index_style l).indices.foldl Nat.max 0 ≤
      (insOrd (chunks3 l.indices)).length - 1 := by
    apply foldl_max_le (Nat.zero_le _)
    intro x hx
    rw [hidx] at hx
    rcases List.mem_map.mp hx with ⟨c, hc, rfl⟩
    have := firstIdx_lt_length (mem_insOrd.mpr hc)
    omega
  have hlb : (insOrd (chunks3 l.indices)).length - 1 ≤
      (to_single_index_style l).indices.foldl Nat.max 0 := by
    have hlt : (insOrd (chunks3 l.indices)).length - 1 <
        (insOrd (chunks3 l.indices)).length := by omega
    have hget : (insOrd (chunks3 l.indices)).get?
        ((insOrd (chunks3 l.indices)).length - 1) =
        some ((insOrd (chunks3 l.indices)).get ⟨_, hlt⟩) :=
      List.get?_eq_get hlt
    have hmemD := List.get_mem (insOrd (chunks3 l.indices)) _ hlt
    have hfi : firstIdx ((insOrd (chunks3 l.indices)).get ⟨_, hlt⟩)
        (insOrd (chunks3 l.indices)) =
        (insOrd (chunks3 l.indices)).length - 1 :=
      nodup_get?_firstIdx (nodup_insOrd _) hget
    have hmemcs : (insOrd (chunks3 l.indices)).get ⟨_, hlt⟩ ∈
        chunks3 l.indices := mem_insOrd.mp hmemD
    have hmem : (insOrd (chunks3 l.indices)).length - 1 ∈
        (to_single_index_style l).indices := by
      rw [hidx]
      rw [← hfi]
      exact List.mem_map_of_mem _ hmemcs
    exact le_foldl_max 0 hmem
  have hmax : (to_single_index_style l).indices.foldl Nat.max 0 =
      (insOrd (chunks3 l.indices)).length - 1 := Nat.le_antisymm hub hlb
  rw [hmax, hlen]
  omega

theorem spec_C2_witness :
    (to_single_index_style objL7).indices.length =
      (chunks3 objL7.indices).length ∧
    (to_single_index_style objL7).indices =
      (chunks3 objL7.indices).map
        (fun c => firstIdx c (insOrd (chunks3 objL7.indices))) ∧
    (chunks3 objL7.indices ≠ [] →
      (to_single_index_style objL7).indices.foldl Nat.max 0 + 1 =
        (to_single_index_style objL7).vertices.length / 3) :=
  spec_C2 objL7 (by unfold allInRange cornerInRange; decide)

/-- C3: with all face indices in range, `to_array_style` emits
`3 × cornerCount` vertex floats and the i-th output blocks are exactly the
blocks resolved from the i-th face corner by the shared resolution rule —
one block per corner, no sharing. -/
theorem spec_C3 (l : OBJLoader) (h : allInRange l) :
    (to_array_style l).vertices.length = 3 * (chunks3 l.indices).length ∧
    ∀ i ci, (chunks3 l.indices).get? i = some ci →
      ((to_array_style l).vertices.drop (3 * i)).take 3 =
        resolvePos l.vertices ci.1 ∧
      ((to_array_style l).texcoords.drop (2 * i)).take 2 =
        resolveTex l.texcoords ci.2.1 ∧
      ((to_array_style l).normals.drop (3 * i)).take 3 =
        resolveNorm l.normals ci.2.2 := by
  have hchar := to_array_style_eq l
  have hkv : ∀ c ∈ chunks3 l.indices,
      (resolvePos l.vertices c.1).length = 3 :=
    fun c hc => length_resolvePos (h c hc).1
  have hkt : ∀ c ∈ chunks3 l.indices,
      (resolveTex l.texcoords c.2.1).length = 2 :=
    fun c hc => length_resolveTex (h c hc).2.1
  have hkn : ∀ c ∈ chunks3 l.indices,
      (resolveNorm l.normals c.2.2).length = 3 :=
    fun c hc => length_resolveNorm (h c hc).2.2
  constructor
  · rw [hchar]
    exact flatMap_length_eq hkv
  · intro i ci hi
    refine ⟨?_, ?_, ?_⟩
    · rw [hchar]; exact flatMap_block hkv hi
    · rw [hchar]; exact flatMap_block hkt hi
    · rw [hchar]; exact flatMap_block hkn hi

theorem spec_C3_witness :
    (to_array_style objL7).vertices.length =
      3 * (chunks3 objL7.indices).length ∧
    ((to_array_style objL7).vertices.drop (3 * 3)).take 3 =
      resolvePos objL7.vertices 1 ∧
    ((to_array_style objL7).texcoords.drop (2 * 3)).take 2 =
      resolveTex objL7.texcoords 0 ∧
    ((to_array_style objL7).normals.drop (3 * 3)).take 3 =
      resolveNorm objL7.normals 0 :=
  ⟨(spec_C3 objL7 (by unfold allInRange cornerInRange; decide)).1,
   (spec_C3 objL7 (by unfold allInRange cornerInRange; decide)).2 3 (1, 0, 0) (by decide)⟩

/-- C6: the shared resolution rule substitutes the fixed defaults for
absent attributes — texcoord `(0,0)` when the texcoord index is 0 or the
texcoord table is empty, normal `(0,0,1)` when the normal index is 0 or
the normal table is empty, position `(0,0,0)` when the position index is
0 — and it does so identically in the output blocks of `to_array_style`
and `to_single_index_style`. -/
theorem spec_C6 (l : OBJLoader) (h : allInRange l) :
    ∀ i ci, (chunks3 l.indices).get? i = some ci →
      ∃ k, (to_single_index_style l).indices.get? i = some k ∧
        ((ci.2.1 = 0 ∨ l.texcoords = []) →
          ((to_array_style l).texcoords.drop (2 * i)).take 2 = [0, 0] ∧
          ((to_single_index_style l).texcoords.drop (2 * k)).take 2 =
            [0, 0]) ∧
        ((ci.2.2 = 0 ∨ l.normals = []) →
          ((to_array_style l).normals.drop (3 * i)).take 3 = [0, 0, 1] ∧
          ((to_single_index_style l).normals.drop (3 * k)).take 3 =
            [0, 0, 1]) ∧
        (ci.1 = 0 →
          ((to_array_style l).vertices.drop (3 * i)).take 3 = [0, 0, 0] ∧
          ((to_single_index_style l).vertices.drop (3 * k)).take 3 =
            [0, 0, 0]) := by
  intro i ci hi
  have hkv : ∀ c ∈ chunks3 l.indices,
      (resolvePos l.vertices c.1).length = 3 :=
    fun c hc => length_resolvePos (h c hc).1
  have hkt : ∀ c ∈ chunks3 l.indices,
      (resolveTex l.texcoords c.2.1).length = 2 :=
    fun c hc => length_resolveTex (h c hc).2.1
  have hkn : ∀ c ∈ chunks3 l.indices,
      (resolveNorm l.normals c.2.2).length = 3 :=
    fun c hc => length_resolveNorm (h c hc).2.2
  have hkvD : ∀ c ∈ insOrd (chunks3 l.indices),
      (resolvePos l.vertices c.1).length = 3 :=
    fun c hc => hkv c (mem_insOrd.mp hc)
  have hktD : ∀ c ∈ insOrd (chunks3 l.indices),
      (resolveTex l.texcoords c.2.1).length = 2 :=
    fun c hc => hkt c (mem_insOrd.mp hc)
  have hknD : ∀ c ∈ insOrd (chunks3 l.indices),
      (resolveNorm l.normals c.2.2).length = 3 :=
    fun c hc => hkn c (mem_insOrd.mp hc)
  have hciD : ci ∈ insOrd (chunks3 l.indices) :=
    mem_insOrd.mpr (List.get?_mem hi)
  have hgetD : (insOrd (chunks3 l.indices)).get?
      (firstIdx ci (insOrd (chunks3 l.indices))) = some ci :=
    get?_firstIdx hciD
  refine ⟨firstIdx ci (insOrd (chunks3 l.indices)), ?_, ?_, ?_, ?_⟩
  · rw [to_single_index_style_eq]
    show ((chunks3 l.indices).map _).get? i = _
    rw [get?_map_own, hi]
    rfl
  · intro hct
    have hdef : resolveTex l.texcoords ci.2.1 = [0, 0] := by
      rcases hct with h0 | h0
      · simp [resolveTex, h0]
      · simp [resolveTex, h0]
    constructor
    · rw [to_array_style_eq]
      exact (flatMap_block hkt hi).trans hdef
    · rw [to_single_index_style_eq]
      exact (flatMap_block hktD hgetD).trans hdef
  · intro hcn
    have hdef : resolveNorm l.normals ci.2.2 = [0, 0, 1] := by
      rcases hcn with h0 | h0
      · simp [resolveNorm, h0]
      · simp [resolveNorm, h0]
    constructor
    · rw [to_array_style_eq]
      exact (flatMap_block hkn hi).trans hdef
    · rw [to_single_index_style_eq]
      exact (flatMap_block hknD hgetD).trans hdef
  · intro hcv
    have hdef : resolvePos l.vertices ci.1 = [0, 0, 0] := by
      simp [resolvePos, hcv]
    constructor
    · rw [to_array_style_eq]
      exact (flatMap_block hkv hi).trans hdef
    · rw [to_single_index_style_eq]
      exact (flatMap_block hkvD hgetD).trans hdef

theorem spec_C6_witness :
    ∃ k, (to_single_index_style objL7).indices.get? 0 = some k ∧
      ((((1:Int), (0:Int), (0:Int)).2.1 = 0 ∨ objL7.texcoords = []) →
        ((to_array_style objL7).texcoords.drop (2 * 0)).take 2 = [0, 0] ∧
        ((to_single_index_style objL7).texcoords.drop (2 * k)).take 2 =
          [0, 0]) ∧
      ((((1:Int), (0:Int), (0:Int)).2.2 = 0 ∨ objL7.normals = []) →
        ((to_array_style objL7).normals.drop (3 * 0)).take 3 = [0, 0, 1] ∧
        ((to_single_index_style objL7).normals.drop (3 * k)).take 3 =
          [0, 0, 1]) ∧
      (((1:Int), (0:Int), (0:Int)).1 = 0 →
        ((to_array_style objL7).vertices.drop (3 * 0)).take 3 = [0, 0, 0] ∧
        ((to_single_index_style objL7).vertices.drop (3 * k)).take 3 =
          [0, 0, 0]) :=
  spec_C6 objL7 (by unfold allInRange cornerInRange; decide) 0 (1, 0, 0)
    (by decide)

/-- Positive position resolution reads the 3-float block at the 0-based
offset: `resolvePos tbl (n+1) = tbl[3n : 3n+3]`. -/
theorem resolvePos_pos (tbl : List ℚ) (n : Nat) :
    resolvePos tbl ((n : Int) + 1) = (tbl.drop (3 * n)).take 3 := by
  have h1 : (0 : Int) < (n : Int) + 1 := by omega
  rw [resolvePos, if_pos h1]
  have h2 : ((n : Int) + 1).toNat - 1 = n := by omega
  rw [pySlice, h2]
  congr 1
  omega

/-- C7: for an input defining 4 positions and faces `f 1 2 3` and
`f 1 3 4`, `to_single_index_style` yields exactly the 4 distinct position
records (its vertex array is the position table itself) with index list
`[0,1,2, 0,2,3]`, while `to_array_style` yields 6 vertex records in which
the blocks of positions 1 and 3 appear twice. -/
theorem spec_C7 (l : OBJLoader) (hv : l.vertices.length = 12)
    (hi : l.indices = [1, 0, 0, 2, 0, 0, 3, 0, 0, 1, 0, 0, 3, 0, 0, 4, 0, 0]) :
    (to_single_index_style l).indices = [0, 1, 2, 0, 2, 3] ∧
    (to_single_index_style l).vertices = l.vertices ∧
    (to_single_index_style l).vertices.length = 12 ∧
    (to_array_style l).vertices.length = 18 ∧
    ((to_array_style l).vertices.drop 9).take 3 =
      (to_array_style l).vertices.take 3 ∧
    ((to_array_style l).vertices.drop 12).take 3 =
      ((to_array_style l).vertices.drop 6).take 3 := by
  have hcs : chunks3 l.indices =
      [(1, 0, 0), (2, 0, 0), (3, 0, 0), (1, 0, 0), (3, 0, 0), (4, 0, 0)] := by
    rw [hi]; rfl
  have hD : insOrd (chunks3 l.indices) =
      [(1, 0, 0), (2, 0, 0), (3, 0, 0), (4, 0, 0)] := by
    rw [hcs]; rfl
  have e1 : resolvePos l.vertices 1 = l.vertices.take 3 := by
    have h := resolvePos_pos l.vertices 0
    norm_num at h
    exact h
  have e2 : resolvePos l.vertices 2 = (l.vertices.drop 3).take 3 := by
    have h := resolvePos_pos l.vertices 1
    norm_num at h
    exact h
  have e3 : resolvePos l.vertices 3 = (l.vertices.drop 6).take 3 := by
    have h := resolvePos_pos l.vertices 2
    norm_num at h
    exact h
  have e4 : resolvePos l.vertices 4 = (l.vertices.drop 9).take 3 := by
    have h := resolvePos_pos l.vertices 3
    norm_num at h
    exact h
  have hkv : ∀ c ∈ chunks3 l.indices,
      (resolvePos l.vertices c.1).length = 3 := by
    intro c hc
    rw [hcs] at hc
    fin_cases hc <;> apply length_resolvePos <;> intro _ <;> rw [hv] <;>
      omega
  have hg0 : (chunks3 l.indices).get? 0 = some (1, 0, 0) := by rw [hcs]; rfl
  have hg2 : (chunks3 l.indices).get? 2 = some (3, 0, 0) := by rw [hcs]; rfl
  have hg3 : (chunks3 l.indices).get? 3 = some (1, 0, 0) := by rw [hcs]; rfl
  have hg4 : (chunks3 l.indices).get? 4 = some (3, 0, 0) := by rw [hcs]; rfl
  have hb0 := flatMap_block hkv hg0
  have hb2 := flatMap_block hkv hg2
  have hb3 := flatMap_block hkv hg3
  have hb4 := flatMap_block hkv hg4
  norm_num at hb0 hb2 hb3 hb4
  have hsiV : (to_single_index_style l).vertices = l.vertices := by
    rw [to_single_index_style_eq]
    show (insOrd (chunks3 l.indices)).flatMap
      (fun c => resolvePos l.vertices c.1) = l.vertices
    rw [hD]
    simp only [List.flatMap_cons, List.flatMap_nil, List.append_nil,
      e1, e2, e3, e4]
    have h9 : (l.vertices.drop 9).take 3 = l.vertices.drop 9 := by
      have hlen : (l.vertices.drop 9).length = 3 := by
        rw [List.length_drop, hv]
      rw [← hlen, List.take_length]
    rw [h9]
    have h6 : (l.vertices.drop 6).take 3 ++ l.vertices.drop 9 =
        l.vertices.drop 6 := by
      have hd : (l.vertices.drop 6).drop 3 = l.vertices.drop 9 := by
        rw [List.drop_drop]
      rw [← hd, List.take_append_drop]
    rw [h6]
    have h3 : (l.vertices.drop 3).take 3 ++ l.vertices.drop 6 =
        l.vertices.drop 3 := by
      have hd : (l.vertices.drop 3).drop 3 = l.vertices.drop 6 := by
        rw [List.drop_drop]
      rw [← hd, List.take_append_drop]
    rw [h3, List.take_append_drop]
  refine ⟨?_, hsiV, by rw [hsiV, hv], ?_, ?_, ?_⟩
  · rw [to_single_index_style_eq]
    show (chunks3 l.indices).map
      (fun c => firstIdx c (insOrd (chunks3 l.indices))) = _
    rw [hD, hcs]
    decide
  · rw [to_array_style_eq]
    show ((chunks3 l.indices).flatMap
      (fun c => resolvePos l.vertices c.1)).length = 18
    rw [flatMap_length_eq hkv, hcs]
    rfl
  · rw [to_array_style_eq]
    show ((((chunks3 l.indices).flatMap
        (fun c => resolvePos l.vertices c.1)).drop 9).take 3) =
      (((chunks3 l.indices).flatMap
        (fun c => resolvePos l.vertices c.1)).take 3)
    exact hb3.trans hb0.symm
  · rw [to_array_style_eq]
    show ((((chunks3 l.indices).flatMap
        (fun c => resolvePos l.vertices c.1)).drop 12).take 3) =
      ((((chunks3 l.indices).flatMap
        (fun c => resolvePos l.vertices c.1)).drop 6).take 3)
    exact hb4.trans hb2.symm

theorem spec_C7_witness :
    (to_single_index_style objL7).indices = [0, 1, 2, 0, 2, 3] ∧
    (to_single_index_style objL7).vertices = objL7.vertices ∧
    (to_single_index_style objL7).vertices.length = 12 ∧
    (to_array_style objL7).vertices.length = 18 ∧
    ((to_array_style objL7).vertices.drop 9).take 3 =
      (to_array_style objL7).vertices.take 3 ∧
    ((to_array_style objL7).vertices.drop 12).take 3 =
      ((to_array_style objL7).vertices.drop 6).take 3 :=
  spec_C7 objL7 (by decide) (by decide)

/-- C8: the conversion methods assign only to local variables, so the
loader's parsed state is unchanged by either call, calls may be repeated,
and repeated `to_single_index_style` calls on the same parsed state give
identical output. -/
theorem spec_C8 (l : OBJLoader) :
    (to_array_style_call l).2 = l ∧
    (to_single_index_style_call l).2 = l ∧
    (to_single_index_style_call ((to_single_index_style_call l).2)).1 =
      (to_single_index_style_call l).1 ∧
    (to_array_style_call ((to_array_style_call l).2)).1 =
      (to_array_style_call l).1 ∧
    (to_array_style_call ((to_single_index_style_call l).2)).1 =
      to_array_style l :=
  ⟨rfl, rfl, rfl, rfl, rfl⟩

theorem length_flatMap_triple : ∀ (tris : List (Int × Int × Int)),
    (tris.flatMap tripleToList).length = 3 * tris.length
  | [] => rfl
  | t :: rest => by
    simp only [List.flatMap_cons, List.length_append, tripleToList,
      List.length_cons, List.length_nil, length_flatMap_triple rest]
    omega

theorem exceptMapM_length {α β : Type} {f : α → Except ParseError β} :
    ∀ {l : List α} {bs : List β}, exceptMapM f l = .ok bs →
      bs.length = l.length := by
  intro l
  induction l with
  | nil =>
    intro bs h
    simp only [exceptMapM, Except.ok.injEq] at h
    rw [← h]
    rfl
  | cons a t ih =>
    intro bs h
    simp only [exceptMapM] at h
    cases hfa : f a with
    | error e => rw [hfa] at h; exact absurd h (by simp)
    | ok b =>
      rw [hfa] at h
      cases hrest : exceptMapM f t with
      | error e => rw [hrest] at h; exact absurd h (by simp)
      | ok bs2 =>
        rw [hrest] at h
        simp only [Except.ok.injEq] at h
        rw [← h]
        simp only [List.length_cons, ih hrest]

theorem processTokens_cons (st : OBJLoader) (code : Tok) (rest : List Tok) :
    processTokens st (code :: rest) =
      (if code = "v".data then
        match optionMapM pyFloat (rest.take 3) with
        | some vs => .ok { st with vertices := st.vertices ++ vs }
        | none => .error .valueError
      else if code = "vn".data then
        match optionMapM pyFloat (rest.take 3) with
        | some vs => .ok { st with normals := st.normals ++ vs }
        | none => .error .valueError
      else if code = "vt".data then
        match optionMapM pyFloat (rest.take 2) with
        | some vs => .ok { st with texcoords := st.texcoords ++ vs }
        | none => .error .valueError
      else if code = "f".data then
        match exceptMapM parseRef rest with
        | .ok tris =>
          .ok { st with indices := st.indices ++ tris.flatMap tripleToList }
        | .error e => .error e
      else if code = "s".data then .ok { st with s := rest.head? }
      else if code = "mtllib".data then .ok { st with mtllib := rest.head? }
      else if code = "usemtl".data then .ok { st with usemtl := rest.head? }
      else .ok st) := rfl

theorem processTokens_indices {st : OBJLoader} {parts : List Tok}
    {st2 : OBJLoader} (h : processTokens st parts = .ok st2) :
    ∃ tris : List (Int × Int × Int),
      st2.indices = st.indices ++ tris.flatMap tripleToList := by
  cases parts with
  | nil =>
    simp only [processTokens, Except.ok.injEq] at h
    subst h
    exact ⟨[], by simp⟩
  | cons code rest =>
    simp only [processTokens] at h
    split at h
    · split at h
      · simp only [Except.ok.injEq] at h
        subst h
        exact ⟨[], by simp⟩
      · exact absurd h (by simp)
    · split at h
      · split at h
        · simp only [Except.ok.injEq] at h
          subst h
          exact ⟨[], by simp⟩
        · exact absurd h (by simp)
      · split at h
        · split at h
          · simp only [Except.ok.injEq] at h
            subst h
            exact ⟨[], by simp⟩
          · exact absurd h (by simp)
        · split at h
          · split at h
            · rename_i tris hm
              simp only [Except.ok.injEq] at h
              subst h
              exact ⟨tris, by simp⟩
            · exact absurd h (by simp)
          · split at h
            · simp only [Except.ok.injEq] at h
              subst h
              exact ⟨[], by simp⟩
            · split at h
              · simp only [Except.ok.injEq] at h
                subst h
                exact ⟨[], by simp⟩
              · split at h
                · simp only [Except.ok.injEq] at h
                  subst h
                  exact ⟨[], by simp⟩
                · simp only [Except.ok.injEq] at h
                  subst h
                  exact ⟨[], by simp⟩

theorem processLine_indices {st : OBJLoader} {line : String}
    {st2 : OBJLoader} (h : processLine st line = .ok st2) :
    ∃ tris : List (Int × Int × Int),
      st2.indices = st.indices ++ tris.flatMap tripleToList := by
  unfold processLine at h
  split at h
  · simp only [Except.ok.injEq] at h
    subst h
    exact ⟨[], by simp⟩
  · exact processTokens_indices h

theorem parseLines_mod3 : ∀ {lines : List String} {st l : OBJLoader},
    parseLines st lines = .ok l → st.indices.length % 3 = 0 →
    l.indices.length % 3 = 0 := by
  intro lines
  induction lines with
  | nil =>
    intro st l h hst
    simp only [parseLines, Except.ok.injEq] at h
    subst h
    exact hst
  | cons a t ih =>
    intro st l h hst
    simp only [parseLines] at h
    cases hp : processLine st a with
    | ok st2 =>
      rw [hp] at h
      rcases processLine_indices hp with ⟨tris, htris⟩
      have h2 : st2.indices.length % 3 = 0 := by
        rw [htris, List.length_append, length_flatMap_triple]
        omega
      exact ih h h2
    | error e =>
      rw [hp] at h
      exact absurd h (by simp)

theorem processTokens_face {st : OBJLoader} {refs : List Tok}
    {st2 : OBJLoader} (h : processTokens st ("f".data :: refs) = .ok st2) :
    st2.indices.length = st.indices.length + 3 * refs.length := by
  have hfv : ¬("f".data = "v".data) := by decide
  have hfvn : ¬("f".data = "vn".data) := by decide
  have hfvt : ¬("f".data = "vt".data) := by decide
  rw [processTokens_cons, if_neg hfv, if_neg hfvn, if_neg hfvt,
    if_pos rfl] at h
  split at h
  · rename_i tris hm
    simp only [Except.ok.injEq] at h
    subst h
    simp only [List.length_append, length_flatMap_triple,
      exceptMapM_length hm]
  · exact absurd h (by simp)

/-- C10: every parser-accepted input stores a multiple of 3 integers in
the flattened face-corner stream, so the converters' 3-element chunking
reconstructs the stream exactly (no partial chunk), the corner count is
`len(indices)/3`, and an `f` line with k reference tokens contributes
exactly k corners (3k integers). -/
theorem spec_C10 (lines : List String) (l : OBJLoader)
    (h : parseOBJ lines = .ok l) :
    l.indices.length % 3 = 0 ∧
    (chunks3 l.indices).flatMap tripleToList = l.indices ∧
    (chunks3 l.indices).length = l.indices.length / 3 ∧
    ∀ st refs st2, processTokens st ("f".data :: refs) = .ok st2 →
      st2.indices.length = st.indices.length + 3 * refs.length := by
  have h3 : l.indices.length % 3 = 0 :=
    parseLines_mod3 h (by simp [emptyLoader])
  exact ⟨h3, chunks3_flatMap _ h3, length_chunks3 _,
    fun st refs st2 hh => processTokens_face hh⟩

theorem spec_C10_witness :
    objC10.indices.length % 3 = 0 ∧
    (chunks3 objC10.indices).flatMap tripleToList = objC10.indices ∧
    (chunks3 objC10.indices).length = objC10.indices.length / 3 ∧
    ∀ st refs st2, processTokens st ("f".data :: refs) = .ok st2 →
      st2.indices.length = st.indices.length + 3 * refs.length :=
  spec_C10 ["v 0 0 0", "f 1 2 3"] objC10 (by decide)

/-- C4 counterexample: on `f 999 1 2` over 3 positions the build does not
fail — Python slice semantics silently produce truncated output: the
array-style vertex array has 6 floats for 3 corners, and the single-index
build likewise emits all 3 slots with only 6 vertex floats. -/
theorem spec_C4_cex :
    parseOBJ ["v 0 0 0", "v 1 0 0", "v 0 1 0", "f 999 1 2"] = .ok objL4 ∧
    (to_array_style objL4).vertices = [0, 0, 0, 1, 0, 0] ∧
    (to_array_style objL4).vertices.length ≠
      3 * (chunks3 objL4.indices).length ∧
    (to_single_index_style objL4).indices = [0, 1, 2] ∧
    (to_single_index_style objL4).vertices.length = 6 := by decide

/-- C4 amended: an out-of-range positive position index is not detected:
the layout builds always succeed, the offending corner contributes an
empty position block, and the output vertex arrays come out strictly
shorter than 3 × cornerCount (silent truncation instead of an
IndexOutOfRange error). -/
theorem spec_C4_amended (l : OBJLoader) (c : Int × Int × Int)
    (hc : c ∈ chunks3 l.indices) (hpos : 0 < c.1)
    (hoob : l.vertices.length ≤ 3 * (c.1.toNat - 1)) :
    resolvePos l.vertices c.1 = [] ∧
    (to_array_style l).vertices.length < 3 * (chunks3 l.indices).length ∧
    (to_single_index_style l).vertices.length <
      3 * (insOrd (chunks3 l.indices)).length := by
  have hnil : resolvePos l.vertices c.1 = [] := by
    rw [resolvePos, if_pos hpos, pySlice, List.drop_eq_nil_of_le hoob]
    simp
  have key : ∀ p : List (Int × Int × Int), c ∈ p →
      (p.flatMap (fun d => resolvePos l.vertices d.1)).length <
        3 * p.length := by
    intro p hp
    rcases List.append_of_mem hp with ⟨s1, t1, hsplit⟩
    subst hsplit
    rw [List.flatMap_append, List.flatMap_cons]
    have b1 : (s1.flatMap (fun d => resolvePos l.vertices d.1)).length ≤
        3 * s1.length :=
      flatMap_length_le (fun d _ => length_resolvePos_le l.vertices d.1)
    have b2 : (t1.flatMap (fun d => resolvePos l.vertices d.1)).length ≤
        3 * t1.length :=
      flatMap_length_le (fun d _ => length_resolvePos_le l.vertices d.1)
    simp only [List.length_append, List.length_cons, hnil, List.length_nil]
    omega
  refine ⟨hnil, ?_, ?_⟩
  · rw [to_array_style_eq]
    exact key _ hc
  · rw [to_single_index_style_eq]
    exact key _ (mem_insOrd.mpr hc)

theorem spec_C4_witness :
    resolvePos objL4.vertices 999 = [] ∧
    (to_array_style objL4).vertices.length <
      3 * (chunks3 objL4.indices).length ∧
    (to_single_index_style objL4).vertices.length <
      3 * (insOrd (chunks3 objL4.indices)).length :=
  spec_C4_amended objL4 (999, 0, 0) (by decide) (by decide) (by decide)

/-- C5 counterexample: the malformed line `v 1.0 2.0` (2 of 3 tokens) does
not fail the parse — it is accepted and silently appends only 2 floats. -/
theorem spec_C5_cex :
    parseOBJ ["v 1.0 2.0"] = .ok { vertices := [1, 2] } ∧
    ({ vertices := [1, 2] } : OBJLoader).vertices.length = 2 := by decide

/-- C5 amended: a `v`/`vn`/`vt` line whose consumed tokens contain one not
parseable as a float aborts the parse with the (ValueError) parse error
and no loader state is returned — the first failing line stops the whole
parse; but a line with fewer tokens than required does not fail: it
appends exactly the floats that are present. -/
theorem spec_C5_amended (st : OBJLoader) (ts : List Tok) :
    (optionMapM pyFloat (ts.take 3) = none →
      processTokens st ("v".data :: ts) = .error .valueError) ∧
    (∀ vs, optionMapM pyFloat (ts.take 3) = some vs →
      processTokens st ("v".data :: ts) =
        .ok { st with vertices := st.vertices ++ vs }) ∧
    (optionMapM pyFloat (ts.take 3) = none →
      processTokens st ("vn".data :: ts) = .error .valueError) ∧
    (optionMapM pyFloat (ts.take 2) = none →
      processTokens st ("vt".data :: ts) = .error .valueError) ∧
    ∀ (line : String) (rest : List String) (e : ParseError),
      processLine st line = .error e →
      parseLines st (line :: rest) = .error e := by
  refine ⟨?_, ?_, ?_, ?_, ?_⟩
  · intro hm
    rw [processTokens_cons, if_pos rfl, hm]
  · intro vs hm
    rw [processTokens_cons, if_pos rfl, hm]
  · intro hm
    rw [processTokens_cons, if_neg (by decide), if_pos rfl, hm]
  · intro hm
    rw [processTokens_cons, if_neg (by decide), if_neg (by decide),
      if_pos rfl, hm]
  · intro line rest e hp
    show (match processLine st line with
      | .ok st2 => parseLines st2 rest
      | .error e2 => .error e2) = .error e
    rw [hp]

theorem spec_C5_witness :
    processTokens emptyLoader ("v".data :: ["1.0".data, "abc".data]) =
      .error .valueError ∧
    processTokens emptyLoader ("v".data :: ["1.0".data, "2.0".data]) =
      .ok { emptyLoader with vertices := emptyLoader.vertices ++ [1, 2] } :=
  ⟨(spec_C5_amended emptyLoader ["1.0".data, "abc".data]).1 (by decide),
   (spec_C5_amended emptyLoader ["1.0".data, "2.0".data]).2.1 [1, 2]
     (by decide)⟩

/-- C9 counterexample: the parser accepts `f -1 2 3` and stores the
negative index -1 in the flattened face-corner stream. -/
theorem spec_C9_cex :
    parseOBJ ["f -1 2 3"] = .ok objNeg ∧
    (-1 : Int) ∈ objNeg.indices ∧
    ¬ ∀ i ∈ objNeg.indices, 0 ≤ i := by decide

/-- Inversion of one reference field: a parsed field is 0 when its string
is empty, otherwise exactly what `int()` returns (sign included). -/
theorem refField_inv {su : Tok} {x : Int} (h : refField su = some x) :
    su.isEmpty = true ∧ x = 0 ∨ pyInt su = some x := by
  unfold refField at h
  split at h
  · rename_i he
    left
    simp only [Option.some.injEq] at h
    exact ⟨by simpa using he, h.symm⟩
  · right
    exact h

/-- C9 amended: each face-reference field present in the token is parsed
by `int()` — which accepts an optional sign, so a stored index can be
negative — and each absent (empty) field is stored as 0. -/
theorem spec_C9_amended (ref : Tok) (v t n : Int)
    (h : parseRef ref = .ok (v, t, n)) :
    (((refSubs ref).getD 0 []).isEmpty = true ∧ v = 0 ∨
      pyInt ((refSubs ref).getD 0 []) = some v) ∧
    (((refSubs ref).getD 1 []).isEmpty = true ∧ t = 0 ∨
      pyInt ((refSubs ref).getD 1 []) = some t) ∧
    (((refSubs ref).getD 2 []).isEmpty = true ∧ n = 0 ∨
      pyInt ((refSubs ref).getD 2 []) = some n) := by
  unfold parseRef at h
  split at h
  · rename_i v0 t0 n0 h0 h1 h2
    simp only [Except.ok.injEq, Prod.mk.injEq] at h
    obtain ⟨hv, ht, hn⟩ := h
    subst hv
    subst ht
    subst hn
    exact ⟨refField_inv h0, refField_inv h1, refField_inv h2⟩
  · exact absurd h (by simp)

theorem spec_C9_witness :
    (((refSubs "-1//3".data).getD 0 []).isEmpty = true ∧ (-1 : Int) = 0 ∨
      pyInt ((refSubs "-1//3".data).getD 0 []) = some (-1)) ∧
    (((refSubs "-1//3".data).getD 1 []).isEmpty = true ∧ (0 : Int) = 0 ∨
      pyInt ((refSubs "-1//3".data).getD 1 []) = some 0) ∧
    (((refSubs "-1//3".data).getD 2 []).isEmpty = true ∧ (3 : Int) = 0 ∨
      pyInt ((refSubs "-1//3".data).getD 2 []) = some 3) :=
  spec_C9_amended "-1//3".data (-1) 0 3 (by decide)
